import Mathlib

/-!
Verification of the share-envelope codec and the threshold encrypt/decrypt
pipelines of the Fractured Key application (`fractured_gui.py`).

Byte strings are modelled as `List Nat`; a well-formed byte string has every
entry below 256.  The external collaborators (password cipher, secret sharer,
AEAD primitive, steganographic carrier) are modelled as capability records,
and the pipeline theorems take their contracts as hypotheses.
-/

namespace Fractured

/-- A well-formed byte string: every entry is an actual byte. -/
def ByteList (l : List Nat) : Prop := ∀ x ∈ l, x < 256

/-- The envelope magic, the literal ASCII bytes of `FKSS01`. -/
def SHARE_MAGIC : List Nat := [70, 75, 83, 83, 48, 49]

/-- The current envelope format version. -/
def SHARE_VERSION : Nat := 1

/-- Big-endian 4-byte encoding, as Python's `int.to_bytes(4, 'big')` writes it
(for values below 2^32). -/
def toBytesBE4 (n : Nat) : List Nat :=
  [n / 16777216 % 256, n / 65536 % 256, n / 256 % 256, n % 256]

/-- Big-endian interpretation of a byte string, as Python's
`int.from_bytes(_, 'big')`. -/
def fromBytesBE4 (l : List Nat) : Nat :=
  l.foldl (fun acc b => acc * 256 + b) 0

/-- The parsed fields of one share envelope, the dictionary returned by
`_parse_share_payload`. -/
structure ShareMeta where
  version : Nat
  index : Nat
  total : Nat
  threshold : Nat
  share_len : Nat
  packaged_cipher_len : Nat
  share_bytes : List Nat
  packaged_cipher : List Nat
deriving DecidableEq, Inhabited

/-- `_wrap_share_payload` (fractured_gui.py lines 2229-2242): magic, version,
index, total and threshold each masked to one byte, the two 4-byte big-endian
lengths, then the share bytes and the packaged cipher.  Python's
`int.to_bytes(4, 'big')` raises `OverflowError` for lengths at or above 2^32,
so the result is an `Option`; `x & 0xFF` on a Python `int` is `x mod 256`,
which for a possibly negative `x` is the euclidean remainder. -/
def wrap_share_payload (share_bytes : List Nat) (index total threshold : Int)
    (packaged_cipher : List Nat) : Option (List Nat) :=
  if share_bytes.length < 4294967296 ∧ packaged_cipher.length < 4294967296 then
    some (SHARE_MAGIC
      ++ [SHARE_VERSION % 256, (index % 256).toNat, (total % 256).toNat,
          (threshold % 256).toNat]
      ++ toBytesBE4 share_bytes.length
      ++ toBytesBE4 packaged_cipher.length
      ++ share_bytes ++ packaged_cipher)
  else none

/-- The three structural failures of `_parse_share_payload`: payload shorter
than the 18-byte header, wrong magic, or declared sizes exceeding the
payload. -/
inductive ParseError where
  | TooShort
  | MagicMismatch
  | SizeOverflow
deriving DecidableEq

/-- `_parse_share_payload` (fractured_gui.py lines 2382-2416), translated
check for check: length guard, magic guard, the four single-byte fields at
offsets 6..9, the two big-endian lengths at offsets 10 and 14, the size
guard `pos + share_len + packaged_cipher_len > len(payload)` with `pos = 18`,
and the two final slices. -/
def parse_share_payload (payload : List Nat) : Except ParseError ShareMeta :=
  if payload.length < 18 then .error .TooShort
  else if payload.take 6 ≠ SHARE_MAGIC then .error .MagicMismatch
  else
    let version := payload.getD 6 0
    let index := payload.getD 7 0
    let total := payload.getD 8 0
    let threshold := payload.getD 9 0
    let share_len := fromBytesBE4 ((payload.drop 10).take 4)
    let packaged_cipher_len := fromBytesBE4 ((payload.drop 14).take 4)
    if 18 + share_len + packaged_cipher_len > payload.length then
      .error .SizeOverflow
    else
      .ok { version := version, index := index, total := total,
            threshold := threshold, share_len := share_len,
            packaged_cipher_len := packaged_cipher_len,
            share_bytes := (payload.drop 18).take share_len,
            packaged_cipher := (payload.drop (18 + share_len)).take
              packaged_cipher_len }

/-- The raw envelope layout: magic, the four header bytes, the two encoded
lengths (always the true lengths of the two trailing segments), then the
segments themselves. -/
def mk_payload (v i t k : Nat) (s p : List Nat) : List Nat :=
  SHARE_MAGIC ++ [v, i, t, k] ++ toBytesBE4 s.length ++ toBytesBE4 p.length
    ++ s ++ p

theorem fromBytesBE4_toBytesBE4 (n : Nat) (h : n < 4294967296) :
    fromBytesBE4 (toBytesBE4 n) = n := by
  simp only [fromBytesBE4, toBytesBE4, List.foldl]
  omega

theorem mk_payload_length (v i t k : Nat) (s p : List Nat) :
    (mk_payload v i t k s p).length = 18 + (s.length + p.length) := by
  simp [mk_payload, SHARE_MAGIC, toBytesBE4]
  omega

theorem take_len_append {α : Type} (l₁ l₂ : List α) (n : Nat)
    (h : l₁.length = n) : (l₁ ++ l₂).take n = l₁ := by
  subst h
  rw [List.take_append_of_le_length (Nat.le_refl _), List.take_length]

theorem drop_len_append {α : Type} (l₁ l₂ : List α) (n : Nat)
    (h : l₁.length = n) : (l₁ ++ l₂).drop n = l₂ := by
  subst h
  rw [List.drop_append_of_le_length (Nat.le_refl _), List.drop_length,
    List.nil_append]

/-- Parsing an envelope in the raw layout recovers every field.  This is the
computational core of the codec round trip. -/
theorem parse_mk_payload (v i t k : Nat) (s p : List Nat)
    (hs : s.length < 4294967296) (hp : p.length < 4294967296) :
    parse_share_payload (mk_payload v i t k s p) =
      .ok ⟨v, i, t, k, s.length, p.length, s, p⟩ := by
  have hlen := mk_payload_length v i t k s p
  have h6 : (mk_payload v i t k s p).take 6 = SHARE_MAGIC := rfl
  have hv : (mk_payload v i t k s p).getD 6 0 = v := rfl
  have hi : (mk_payload v i t k s p).getD 7 0 = i := rfl
  have ht : (mk_payload v i t k s p).getD 8 0 = t := rfl
  have hk : (mk_payload v i t k s p).getD 9 0 = k := rfl
  have hm10 : ((mk_payload v i t k s p).drop 10).take 4 =
      toBytesBE4 s.length := rfl
  have hm14 : ((mk_payload v i t k s p).drop 14).take 4 =
      toBytesBE4 p.length := rfl
  have hd18 : (mk_payload v i t k s p).drop 18 = s ++ p := rfl
  have hsl : fromBytesBE4 (((mk_payload v i t k s p).drop 10).take 4) =
      s.length := by rw [hm10, fromBytesBE4_toBytesBE4 _ hs]
  have hpl : fromBytesBE4 (((mk_payload v i t k s p).drop 14).take 4) =
      p.length := by rw [hm14, fromBytesBE4_toBytesBE4 _ hp]
  have hd18s : ((mk_payload v i t k s p).drop 18).take s.length = s := by
    rw [hd18]; exact take_len_append s p _ rfl
  have hd18p : ((mk_payload v i t k s p).drop (18 + s.length)).take p.length
      = p := by
    rw [← List.drop_drop, hd18, drop_len_append s p _ rfl, List.take_length]
  rw [parse_share_payload]
  rw [if_neg (by omega)]
  rw [if_neg (by simp [h6])]
  simp only [hv, hi, ht, hk, hsl, hpl]
  rw [if_neg (by omega)]
  rw [hd18s, hd18p]

/-- Encoding always writes the raw layout, with the version byte and the
three one-byte header fields masked to bytes. -/
theorem wrap_eq_mk_payload (s p : List Nat) (i t k : Int)
    (hs : s.length < 4294967296) (hp : p.length < 4294967296) :
    wrap_share_payload s i t k p =
      some (mk_payload (SHARE_VERSION % 256) (i % 256).toNat (t % 256).toNat
        (k % 256).toNat s p) := by
  rw [wrap_share_payload, if_pos ⟨hs, hp⟩]
  rfl

/-- The share length the buffer declares in its bytes 10..13. -/
def declared_share_len (b : List Nat) : Nat :=
  fromBytesBE4 ((b.drop 10).take 4)

/-- The packaged-cipher length the buffer declares in its bytes 14..17. -/
def declared_packaged_len (b : List Nat) : Nat :=
  fromBytesBE4 ((b.drop 14).take 4)

/-- Claim C2: for every share, packaged cipher, and index, total, threshold
each in 1..255, decoding the bytes produced by encoding succeeds and returns
exactly the original version, index, total, threshold, share bytes and
packaged cipher.  (Encoding requires both variable segments to be shorter
than 2^32, since Python's 4-byte `to_bytes` raises beyond that.) -/
theorem C2_codec_round_trip (s p : List Nat) (i t k : Nat)
    (hi1 : 1 ≤ i) (hi2 : i ≤ 255) (ht1 : 1 ≤ t) (ht2 : t ≤ 255)
    (hk1 : 1 ≤ k) (hk2 : k ≤ 255)
    (hs : s.length < 4294967296) (hp : p.length < 4294967296) :
    ∃ e, wrap_share_payload s (i : Int) (t : Int) (k : Int) p = some e ∧
      parse_share_payload e =
        .ok ⟨SHARE_VERSION, i, t, k, s.length, p.length, s, p⟩ := by
  refine ⟨_, wrap_eq_mk_payload s p i t k hs hp, ?_⟩
  have hi' : (((i : Int)) % 256).toNat = i := by omega
  have ht' : (((t : Int)) % 256).toNat = t := by omega
  have hk' : (((k : Int)) % 256).toNat = k := by omega
  rw [hi', ht', hk']
  exact parse_mk_payload _ i t k s p hs hp

/-- Claim C3: decoding fails with `TooShort` on buffers shorter than the
18-byte header; with `MagicMismatch` when the first 6 bytes are not the
magic; and with `SizeOverflow` when the magic matches but the declared
lengths exceed the bytes remaining after the header. -/
theorem C3_parse_failures (b : List Nat) :
    (b.length < 18 → parse_share_payload b = .error .TooShort) ∧
    (18 ≤ b.length → b.take 6 ≠ SHARE_MAGIC →
      parse_share_payload b = .error .MagicMismatch) ∧
    (18 ≤ b.length → b.take 6 = SHARE_MAGIC →
      b.length - 18 < declared_share_len b + declared_packaged_len b →
      parse_share_payload b = .error .SizeOverflow) := by
  refine ⟨fun h => ?_, fun h hm => ?_, fun h hm hsz => ?_⟩
  · rw [parse_share_payload, if_pos h]
  · rw [parse_share_payload, if_neg (by omega), if_pos hm]
  · rw [parse_share_payload, if_neg (by omega), if_neg (by simp [hm])]
    simp only [declared_share_len, declared_packaged_len] at hsz
    exact if_pos (by omega)

/-- Claim C9: for every integer index, total and threshold, including values
outside 1..255, encoding does not fail (given encodable segment lengths);
it writes each of the three header bytes reduced modulo 256, and for values
already in 0..255 the byte written equals the value. -/
theorem C9_header_bytes_mod_256 (i t k : Int) (s p : List Nat)
    (hs : s.length < 4294967296) (hp : p.length < 4294967296) :
    ∃ e, wrap_share_payload s i t k p = some e ∧
      e.getD 7 0 = (i % 256).toNat ∧
      e.getD 8 0 = (t % 256).toNat ∧
      e.getD 9 0 = (k % 256).toNat ∧
      (0 ≤ i → i ≤ 255 → (e.getD 7 0 : Int) = i) ∧
      (0 ≤ t → t ≤ 255 → (e.getD 8 0 : Int) = t) ∧
      (0 ≤ k → k ≤ 255 → (e.getD 9 0 : Int) = k) := by
  refine ⟨_, wrap_eq_mk_payload s p i t k hs hp, rfl, rfl, rfl,
    fun h1 h2 => ?_, fun h1 h2 => ?_, fun h1 h2 => ?_⟩
  · show (((i % 256).toNat : Nat) : Int) = i
    omega
  · show (((t % 256).toNat : Nat) : Int) = t
    omega
  · show (((k % 256).toNat : Nat) : Int) = k
    omega

/-! ## Decrypt pipeline (`_decrypt_worker`, fractured_gui.py lines 2312-2380)

The external collaborators are capability records: the carrier's extract, the
secret sharer's recover, the AEAD decrypt (returning `none` on tag failure,
as `AESGCM.decrypt` raises `InvalidTag`), and the password cipher's decrypt
(returning `none` on authentication failure). -/

structure DecryptCaps where
  extract : String → List Nat
  recover : List (List Nat) → List Nat
  aeadDecrypt : List Nat → List Nat → List Nat → Option (List Nat)
  pcDecrypt : List Nat → List Nat → List Nat → String → Option String

/-- The terminal failures of the decrypt worker, one per abort path of the
Python code: a parse failure raised out of `_parse_share_payload`, the
`len(parsed_shares) < 2` guard, the cross-envelope mismatch guard, the
`len(parsed_shares) < threshold` guard, the AEAD unwrap tag failure, and the
password-layer authentication failure. -/
inductive DecryptError where
  | parseFail (e : ParseError)
  | notEnoughValidShares
  | sharesDoNotMatch
  | belowThreshold
  | unwrapAuthFailure
  | passwordAuthFailure
deriving DecidableEq

/-- The spec's `InsufficientShares` covers both share-count guards of the
worker: the initial `< 2` check and the `< threshold` check. -/
def DecryptError.isInsufficientShares : DecryptError → Bool
  | .notEnoughValidShares => true
  | .belowThreshold => true
  | _ => false

/-- The per-image extract-and-parse loop: the first parse failure aborts the
whole attempt. -/
def parse_all : List (List Nat) → Except DecryptError (List ShareMeta)
  | [] => .ok []
  | payload :: rest =>
    match parse_share_payload payload with
    | .error e => .error (.parseFail e)
    | .ok meta =>
      match parse_all rest with
      | .error e => .error e
      | .ok metas => .ok (meta :: metas)

/-- The cross-envelope validation stage (lines 2327-2352): the `< 2` guard,
the four distinct-value checks (Python set cardinalities, modelled with
`List.dedup`), the threshold guard, and on success the first `threshold`
envelopes' share bytes in input order together with the first envelope's
packaged cipher. -/
def decrypt_validate (parsed : List ShareMeta) :
    Except DecryptError (List (List Nat) × List Nat) :=
  if parsed.length < 2 then .error .notEnoughValidShares
  else if (parsed.map (·.version)).dedup.length ≠ 1 ∨
      (parsed.map (·.total)).dedup.length ≠ 1 ∨
      (parsed.map (·.threshold)).dedup.length ≠ 1 ∨
      (parsed.map (·.packaged_cipher)).dedup.length ≠ 1 then
    .error .sharesDoNotMatch
  else if parsed.length < parsed.headI.threshold then .error .belowThreshold
  else .ok ((parsed.take parsed.headI.threshold).map (·.share_bytes),
    parsed.headI.packaged_cipher)

/-- The key-length normalization (lines 2353-2356): a recovered key shorter
than 16 bytes is left-zero-padded to 16, one longer keeps only its last 16
bytes, one of exactly 16 bytes is unchanged. -/
def normalize_key (k : List Nat) : List Nat :=
  if k.length < 16 then List.replicate (16 - k.length) 0 ++ k
  else if k.length > 16 then k.drop (k.length - 16)
  else k

/-- The AEAD unwrap and blob split (lines 2358-2366): the packaged cipher is
split into its first 12 bytes (nonce) and the rest, AEAD-decrypted, and on
success the recovered blob is split with Python slice semantics into
`blob[:16]`, `blob[16:28]`, `blob[28:]` — with no length check. -/
def unwrap_step (aeadDecrypt : List Nat → List Nat → List Nat →
    Option (List Nat)) (recovered_k2 packaged_cipher : List Nat) :
    Option (List Nat × List Nat × List Nat) :=
  match aeadDecrypt recovered_k2 (packaged_cipher.take 12)
      (packaged_cipher.drop 12) with
  | none => none
  | some binary_blob =>
    some (binary_blob.take 16, (binary_blob.drop 16).take 12,
      binary_blob.drop 28)

/-- The whole decrypt worker: extract every image, parse, validate, recover
and normalize the ephemeral key, unwrap the packaged cipher, split the blob
and decrypt it with the master password. -/
def decrypt_worker (caps : DecryptCaps) (image_paths : List String)
    (master_password : String) : Except DecryptError String :=
  match parse_all (image_paths.map caps.extract) with
  | .error e => .error e
  | .ok parsed_shares =>
    match decrypt_validate parsed_shares with
    | .error e => .error e
    | .ok (share_bytes_list, packaged_cipher) =>
      match unwrap_step caps.aeadDecrypt
          (normalize_key (caps.recover share_bytes_list)) packaged_cipher with
      | none => .error .unwrapAuthFailure
      | some (salt, nonce, ciphertext_with_tag) =>
        match caps.pcDecrypt salt nonce ciphertext_with_tag
            master_password with
        | none => .error .passwordAuthFailure
        | some plaintext => .ok plaintext

/-! ## Encrypt pipeline (`_encrypt_worker` and `_create_shares_and_embed`,
fractured_gui.py lines 2121-2226) -/

structure EncryptCaps where
  pcEncrypt : String → String → List Nat × List Nat × List Nat
  aeadEncrypt : List Nat → List Nat → List Nat → List Nat
  split : List Nat → Nat → Nat → List (List Nat)
  embed : String → List Nat → String

/-- The per-share loop of `_create_shares_and_embed`: shares are processed
in order with 1-based indices; a share whose carrier is missing is skipped
with a warning; otherwise the envelope is built and embedded.  An envelope
encoding failure (`OverflowError`) aborts the pipeline, hence the
`Option`. -/
def embed_loop (caps : EncryptCaps) (packaged_cipher : List Nat)
    (total threshold : Nat) :
    Nat → List (List Nat × Option String) → Option (List String)
  | _, [] => some []
  | i, (_, none) :: rest =>
    embed_loop caps packaged_cipher total threshold (i + 1) rest
  | i, (share_bytes, some carrier_path) :: rest =>
    match wrap_share_payload share_bytes (i : Int) (total : Int)
        (threshold : Int) packaged_cipher with
    | none => none
    | some payload =>
      match embed_loop caps packaged_cipher total threshold (i + 1) rest with
      | none => none
      | some paths => some (caps.embed carrier_path payload :: paths)

/-- `_create_shares_and_embed` (lines 2167-2226): wrap the blob under the
ephemeral key `K2` with the fresh nonce `nonce2` (both random in the source,
here explicit inputs), split `K2` into `n = 3` shares with threshold `k = 2`,
and run the embedding loop over the shares and their chosen carriers. -/
def create_shares_and_embed (caps : EncryptCaps)
    (K2 nonce2 binary_blob : List Nat) (carriers : List (Option String)) :
    Option (List String) :=
  let packaged_cipher := nonce2 ++ caps.aeadEncrypt K2 nonce2 binary_blob
  let shares := caps.split K2 3 2
  embed_loop caps packaged_cipher 3 2 1 (shares.zip carriers)

/-- `_encrypt_worker` in share mode (lines 2121-2148): encrypt the password
under the master password, concatenate `salt ‖ nonce ‖ ciphertext+tag` into
the binary blob, and hand it to the share pipeline. -/
def encrypt_worker (caps : EncryptCaps) (password master_password : String)
    (K2 nonce2 : List Nat) (carriers : List (Option String)) :
    Option (List String) :=
  match caps.pcEncrypt password master_password with
  | (salt, nonce, ciphertext_with_tag) =>
    create_shares_and_embed caps K2 nonce2
      (salt ++ nonce ++ ciphertext_with_tag) carriers

/-! ## Helper lemmas about the pipeline stages -/

theorem parse_all_length (ps : List (List Nat)) (ms : List ShareMeta)
    (h : parse_all ps = .ok ms) : ms.length = ps.length := by
  induction ps generalizing ms with
  | nil =>
    simp only [parse_all, Except.ok.injEq] at h
    subst h
    rfl
  | cons p rest ih =>
    rw [parse_all] at h
    cases hp : parse_share_payload p with
    | error e => rw [hp] at h; exact absurd h (by simp)
    | ok meta =>
      rw [hp] at h
      cases hr : parse_all rest with
      | error e => rw [hr] at h; exact absurd h (by simp)
      | ok metas =>
        rw [hr] at h
        simp only [Except.ok.injEq] at h
        subst h
        simp [ih metas hr]

theorem dedup_le_length {α : Type} [DecidableEq α] (l : List α) :
    l.dedup.length ≤ l.length :=
  l.dedup_sublist.length_le

/-- The cross-envelope agreement the decrypt validation checks for: exactly
one distinct value of each of version, total, threshold and packaged
cipher. -/
def envelopes_consistent (parsed : List ShareMeta) : Prop :=
  (parsed.map (·.version)).dedup.length = 1 ∧
  (parsed.map (·.total)).dedup.length = 1 ∧
  (parsed.map (·.threshold)).dedup.length = 1 ∧
  (parsed.map (·.packaged_cipher)).dedup.length = 1

theorem validate_mismatch (parsed : List ShareMeta)
    (h : 1 < (parsed.map (·.version)).dedup.length ∨
      1 < (parsed.map (·.total)).dedup.length ∨
      1 < (parsed.map (·.threshold)).dedup.length ∨
      1 < (parsed.map (·.packaged_cipher)).dedup.length) :
    decrypt_validate parsed = .error .sharesDoNotMatch := by
  have h2 : 2 ≤ parsed.length := by
    rcases h with h | h | h | h
    · have hle := dedup_le_length (parsed.map (·.version))
      simp only [List.length_map] at hle
      omega
    · have hle := dedup_le_length (parsed.map (·.total))
      simp only [List.length_map] at hle
      omega
    · have hle := dedup_le_length (parsed.map (·.threshold))
      simp only [List.length_map] at hle
      omega
    · have hle := dedup_le_length (parsed.map (·.packaged_cipher))
      simp only [List.length_map] at hle
      omega
  rw [decrypt_validate, if_neg (by omega), if_pos (by omega)]

theorem validate_single (parsed : List ShareMeta)
    (h : parsed.length = 1) :
    decrypt_validate parsed = .error .notEnoughValidShares := by
  rw [decrypt_validate, if_pos (by omega)]

theorem validate_insufficient (parsed : List ShareMeta)
    (hcons : envelopes_consistent parsed)
    (hlt : parsed.length < parsed.headI.threshold ∨ parsed.length < 2) :
    ∃ e, decrypt_validate parsed = .error e ∧
      e.isInsufficientShares = true := by
  by_cases h2 : parsed.length < 2
  · exact ⟨.notEnoughValidShares, by rw [decrypt_validate, if_pos h2], rfl⟩
  · have hlt' : parsed.length < parsed.headI.threshold := by omega
    obtain ⟨c1, c2, c3, c4⟩ := hcons
    exact ⟨.belowThreshold,
      by rw [decrypt_validate, if_neg h2, if_neg (by omega), if_pos hlt'], rfl⟩

theorem decrypt_worker_of_validate_error (caps : DecryptCaps)
    (paths : List String) (master : String) (parsed : List ShareMeta)
    (e : DecryptError)
    (hparse : parse_all (paths.map caps.extract) = .ok parsed)
    (hval : decrypt_validate parsed = .error e) :
    decrypt_worker caps paths master = .error e := by
  simp only [decrypt_worker, hparse, hval]

/-- Claim C8: a recovered candidate key shorter than 16 bytes is
left-zero-padded to exactly 16 bytes, one longer than 16 bytes keeps only
its last 16 bytes, and one of exactly 16 bytes is used unchanged.  (The
decrypt worker feeds `normalize_key` of the sharer's recovery output
directly to the AEAD unwrap, see `decrypt_worker`.) -/
theorem C8_key_normalization (k : List Nat) :
    (k.length < 16 →
      normalize_key k = List.replicate (16 - k.length) 0 ++ k ∧
      (normalize_key k).length = 16) ∧
    (16 < k.length →
      normalize_key k = k.drop (k.length - 16) ∧
      (normalize_key k).length = 16) ∧
    (k.length = 16 → normalize_key k = k) := by
  refine ⟨fun h => ?_, fun h => ?_, fun h => ?_⟩
  · rw [normalize_key, if_pos h]
    refine ⟨rfl, ?_⟩
    simp only [List.length_append, List.length_replicate]
    omega
  · rw [normalize_key, if_neg (by omega), if_pos (by omega)]
    refine ⟨rfl, ?_⟩
    simp only [List.length_drop]
    omega
  · rw [normalize_key, if_neg (by omega), if_neg (by omega)]

/-- The three slices `blob[:16]`, `blob[16:28]`, `blob[28:]` of a blob that
really is `salt ‖ nonce ‖ rest` with a 16-byte salt and a 12-byte nonce. -/
theorem blob_slices (salt nonce ct : List Nat) (hs : salt.length = 16)
    (hn : nonce.length = 12) :
    (salt ++ nonce ++ ct).take 16 = salt ∧
    ((salt ++ nonce ++ ct).drop 16).take 12 = nonce ∧
    (salt ++ nonce ++ ct).drop 28 = ct := by
  have ha : salt ++ nonce ++ ct = salt ++ (nonce ++ ct) :=
    List.append_assoc salt nonce ct
  have h2 : (salt ++ (nonce ++ ct)).drop 16 = nonce ++ ct :=
    drop_len_append _ _ _ hs
  refine ⟨?_, ?_, ?_⟩
  · rw [ha]
    exact take_len_append _ _ _ hs
  · rw [ha, h2]
    exact take_len_append _ _ _ hn
  · have h28 : (28 : Nat) = 16 + 12 := rfl
    rw [ha, h28, ← List.drop_drop, h2, drop_len_append _ _ _ hn]

/-- A constant AEAD-decrypt capability returning a 3-byte plaintext, used to
exhibit the missing minimum-length check in the unwrap step. -/
def shortBlobAead : List Nat → List Nat → List Nat → Option (List Nat) :=
  fun _ _ _ => some [1, 2, 3]

/-- Claim C5, counterexample: the AEAD unwrap succeeds with a recovered
plaintext of only 3 bytes (< 28), yet the unwrap step does not fail with
`Malformed` — the source performs no length check — and instead proceeds
with an undersized split: salt is the whole 3-byte blob, nonce and
ciphertext are empty. -/
theorem C5_counterexample :
    unwrap_step shortBlobAead (List.replicate 16 0) (List.replicate 40 0) =
      some ([1, 2, 3], [], []) ∧ ([1, 2, 3] : List Nat).length < 28 := by
  exact ⟨rfl, by decide⟩

/-- Claim C5 as amended: when the AEAD unwrap succeeds the recovered blob is
split with Python slice semantics — `blob[:16]`, `blob[16:28]`, `blob[28:]` —
unconditionally, with no `Malformed` failure for blobs shorter than 28
bytes; for a well-formed blob of at least 28 bytes this split returns the
16-byte salt, the 12-byte nonce and the remaining ciphertext exactly. -/
theorem C5_amended_unwrap_split (aead : List Nat → List Nat → List Nat →
    Option (List Nat)) (k2 pkg blob : List Nat)
    (h : aead k2 (pkg.take 12) (pkg.drop 12) = some blob) :
    unwrap_step aead k2 pkg =
      some (blob.take 16, (blob.drop 16).take 12, blob.drop 28) ∧
    (∀ salt nonce ct, blob = salt ++ nonce ++ ct → salt.length = 16 →
      nonce.length = 12 → unwrap_step aead k2 pkg = some (salt, nonce, ct)) := by
  have hu : unwrap_step aead k2 pkg =
      some (blob.take 16, (blob.drop 16).take 12, blob.drop 28) := by
    rw [unwrap_step, h]
  refine ⟨hu, fun salt nonce ct hb hs hn => ?_⟩
  obtain ⟨e1, e2, e3⟩ := blob_slices salt nonce ct hs hn
  rw [hu, hb, e1, e2, e3]

/-- Claim C7: for every set of successfully parsed envelopes, disagreement
in version, total, threshold or packaged cipher fails the attempt with
`InconsistentShares` (`sharesDoNotMatch`); agreement with fewer envelopes
than the declared threshold — in particular a single image — fails with
`InsufficientShares` (either of the two share-count guards).  The
capability record `caps` is arbitrary, so neither recovery nor unwrap can
influence these outcomes: the worker aborts before calling them. -/
theorem C7_consistency_and_threshold (caps : DecryptCaps)
    (paths : List String) (master : String) (parsed : List ShareMeta)
    (hparse : parse_all (paths.map caps.extract) = .ok parsed) :
    ((1 < (parsed.map (·.version)).dedup.length ∨
      1 < (parsed.map (·.total)).dedup.length ∨
      1 < (parsed.map (·.threshold)).dedup.length ∨
      1 < (parsed.map (·.packaged_cipher)).dedup.length) →
      decrypt_worker caps paths master = .error .sharesDoNotMatch) ∧
    (envelopes_consistent parsed →
      parsed.length < parsed.headI.threshold →
      ∃ e, decrypt_worker caps paths master = .error e ∧
        e.isInsufficientShares = true) ∧
    (paths.length = 1 →
      decrypt_worker caps paths master = .error .notEnoughValidShares) := by
  refine ⟨fun h => ?_, fun hcons hlt => ?_, fun h1 => ?_⟩
  · exact decrypt_worker_of_validate_error caps paths master parsed _ hparse
      (validate_mismatch parsed h)
  · obtain ⟨e, he, hi⟩ := validate_insufficient parsed hcons (Or.inl hlt)
    exact ⟨e, decrypt_worker_of_validate_error caps paths master parsed e
      hparse he, hi⟩
  · have hlen : parsed.length = 1 := by
      have := parse_all_length _ _ hparse
      simp only [List.length_map] at this
      omega
    exact decrypt_worker_of_validate_error caps paths master parsed _ hparse
      (validate_single parsed hlen)

/-- Claim C10: the consistency validation compares only version, total,
threshold and packaged cipher; the index field is never compared or
deduplicated.  A set of at least `threshold` consistent envelopes passes
validation even when two of them carry the same index, and the first
`threshold` envelopes' share bytes, in input selection order, are handed to
recovery. -/
theorem C10_index_never_checked (parsed : List ShareMeta)
    (hcons : envelopes_consistent parsed)
    (h2 : 2 ≤ parsed.length)
    (hthr : parsed.headI.threshold ≤ parsed.length)
    (hdup : ∃ i j : Fin parsed.length, i ≠ j ∧
      (parsed.get i).index = (parsed.get j).index) :
    decrypt_validate parsed =
      .ok ((parsed.take parsed.headI.threshold).map (·.share_bytes),
        parsed.headI.packaged_cipher) := by
  obtain ⟨c1, c2, c3, c4⟩ := hcons
  rw [decrypt_validate, if_neg (by omega), if_neg (by omega),
    if_neg (by omega)]

/-- A payload in the raw layout whose version byte is 2, not the current
version 1.  It declares a 1-byte share `[9]` and a 13-byte packaged
cipher. -/
def version2_payload : List Nat :=
  mk_payload 2 1 2 2 [9] [0, 0, 0, 0, 0, 0, 0, 0, 0, 0, 0, 0, 8]

/-- A capability record under which two copies of `version2_payload` drive
the decrypt worker to completion. -/
def version2_caps : DecryptCaps where
  extract := fun _ => version2_payload
  recover := fun _ => List.replicate 16 0
  aeadDecrypt := fun _ _ _ => some (List.replicate 28 0)
  pcDecrypt := fun _ _ _ _ => some "recovered"

/-- Claim C6, counterexample: a buffer whose version byte is 2 (≠ 1) is
decoded successfully — the parser reads the version field but never
compares it to the current version — and a decrypt attempt on two such
envelopes proceeds through recovery all the way to success rather than
rejecting the unknown version. -/
theorem C6_counterexample :
    parse_share_payload version2_payload =
      .ok ⟨2, 1, 2, 2, 1, 13, [9], [0, 0, 0, 0, 0, 0, 0, 0, 0, 0, 0, 0, 8]⟩ ∧
    decrypt_worker version2_caps ["img1", "img2"] "master" =
      .ok "recovered" := by
  constructor
  · rfl
  · rfl

/-- Claim C6 as amended: unknown magic is rejected deterministically with
`MagicMismatch`, but the version byte is not validated against the current
version 1 — an envelope with any version value decodes successfully, and
the only version-related check anywhere in the decrypt path is the
cross-envelope equality check of `decrypt_validate`. -/
theorem C6_amended_magic_only (v i t k : Nat) (s p : List Nat)
    (hs : s.length < 4294967296) (hp : p.length < 4294967296)
    (hv : v ≠ 1) :
    parse_share_payload (mk_payload v i t k s p) =
      .ok ⟨v, i, t, k, s.length, p.length, s, p⟩ ∧
    (∀ b : List Nat, 18 ≤ b.length → b.take 6 ≠ SHARE_MAGIC →
      parse_share_payload b = .error .MagicMismatch) := by
  refine ⟨parse_mk_payload v i t k s p hs hp, fun b hb hm => ?_⟩
  rw [parse_share_payload, if_neg (by omega), if_pos hm]

theorem normalize_key_len16 (k : List Nat) (h : k.length = 16) :
    normalize_key k = k := by
  rw [normalize_key, if_neg (by omega), if_neg (by omega)]

theorem dedup_pair {α : Type} [DecidableEq α] (a : α) :
    ([a, a] : List α).dedup = [a] := by
  rw [List.dedup_cons_of_mem (by simp)]
  simp

/-- Encoding with one-byte natural index, total and threshold: the masked
header bytes are the values themselves. -/
theorem wrap_nat_eq (s p : List Nat) (i t k : Nat) (hi : i < 256)
    (ht : t < 256) (hk : k < 256)
    (hs : s.length < 4294967296) (hp : p.length < 4294967296) :
    wrap_share_payload s (i : Int) (t : Int) (k : Int) p =
      some (mk_payload 1 i t k s p) := by
  rw [wrap_eq_mk_payload s p i t k hs hp]
  have hi' : (((i : Int)) % 256).toNat = i := by omega
  have ht' : (((t : Int)) % 256).toNat = t := by omega
  have hk' : (((k : Int)) % 256).toNat = k := by omega
  rw [hi', ht', hk']
  rfl

/-- Decrypting two extracted envelopes that wrap shares of one session:
both carry version 1, total 3, threshold 2 and the same packaged cipher, so
validation passes, the two shares are recovered to the 16-byte ephemeral
key, the packaged cipher is unwrapped, and the blob decrypts to the
password. -/
theorem decrypt_two_wrapped (dcaps : DecryptCaps) (pathA pathB : String)
    (sA sB : List Nat) (iA iB : Nat) (nonce2 act : List Nat)
    (master password : String) (K2 salt nonce ct : List Nat)
    (hextA : dcaps.extract pathA = mk_payload 1 iA 3 2 sA (nonce2 ++ act))
    (hextB : dcaps.extract pathB = mk_payload 1 iB 3 2 sB (nonce2 ++ act))
    (hsA : sA.length < 4294967296) (hsB : sB.length < 4294967296)
    (hpkg : (nonce2 ++ act).length < 4294967296)
    (hrec : dcaps.recover [sA, sB] = K2) (hK2 : K2.length = 16)
    (hnonce2 : nonce2.length = 12)
    (haead : dcaps.aeadDecrypt K2 nonce2 act = some (salt ++ nonce ++ ct))
    (hsalt : salt.length = 16) (hnonce : nonce.length = 12)
    (hpcd : dcaps.pcDecrypt salt nonce ct master = some password) :
    decrypt_worker dcaps [pathA, pathB] master = .ok password := by
  have hmA : parse_share_payload (dcaps.extract pathA) =
      .ok ⟨1, iA, 3, 2, sA.length, (nonce2 ++ act).length, sA,
        nonce2 ++ act⟩ := by
    rw [hextA]
    exact parse_mk_payload 1 iA 3 2 sA (nonce2 ++ act) hsA hpkg
  have hmB : parse_share_payload (dcaps.extract pathB) =
      .ok ⟨1, iB, 3, 2, sB.length, (nonce2 ++ act).length, sB,
        nonce2 ++ act⟩ := by
    rw [hextB]
    exact parse_mk_payload 1 iB 3 2 sB (nonce2 ++ act) hsB hpkg
  have hparse : parse_all ([pathA, pathB].map dcaps.extract) =
      .ok [⟨1, iA, 3, 2, sA.length, (nonce2 ++ act).length, sA,
        nonce2 ++ act⟩,
        ⟨1, iB, 3, 2, sB.length, (nonce2 ++ act).length, sB,
          nonce2 ++ act⟩] := by
    simp only [List.map_cons, List.map_nil, parse_all, hmA, hmB]
  have hval : decrypt_validate
      [⟨1, iA, 3, 2, sA.length, (nonce2 ++ act).length, sA, nonce2 ++ act⟩,
       ⟨1, iB, 3, 2, sB.length, (nonce2 ++ act).length, sB,
         nonce2 ++ act⟩] = .ok ([sA, sB], nonce2 ++ act) := by
    rw [decrypt_validate, if_neg (by simp), if_neg ?_, if_neg (by simp)]
    · rfl
    · simp only [List.map_cons, List.map_nil, dedup_pair]
      simp
  have hunwrap : unwrap_step dcaps.aeadDecrypt
      (normalize_key (dcaps.recover [sA, sB])) (nonce2 ++ act) =
      some (salt, nonce, ct) := by
    obtain ⟨e1, e2, e3⟩ := blob_slices salt nonce ct hsalt hnonce
    rw [hrec, normalize_key_len16 K2 hK2]
    simp only [unwrap_step, take_len_append nonce2 act 12 hnonce2,
      drop_len_append nonce2 act 12 hnonce2, haead, e1, e2, e3]
  simp only [decrypt_worker, hparse, hval, hunwrap, hpcd]

/-- Claim C1: the full encrypt pipeline — password-cipher encrypt, wrap
under a fresh 16-byte ephemeral key `K2`, split `K2` into 3 shares with
threshold 2, one envelope per share embedded into its carrier — followed by
the decrypt pipeline on any 2 of the 3 produced images (in either order)
with the same master password, yields exactly the original password.  The
hypotheses are the stated capability contracts: the password cipher's
encrypt/decrypt round trip with a 16-byte salt and a 12-byte nonce, the
sharer's recovery of `K2` from any 2 distinct shares, the AEAD round trip,
and the carrier's lossless embed/extract round trip, instantiated at the
three payloads the pipeline embeds. -/
theorem C1_encrypt_decrypt_round_trip (ecaps : EncryptCaps)
    (dcaps : DecryptCaps) (password master : String) (K2 nonce2 : List Nat)
    (c1 c2 c3 : String) (salt nonce ct s1 s2 s3 : List Nat)
    (hpc : ecaps.pcEncrypt password master = (salt, nonce, ct))
    (hsalt : salt.length = 16) (hnonce : nonce.length = 12)
    (hK2 : K2.length = 16) (hnonce2 : nonce2.length = 12)
    (hsplit : ecaps.split K2 3 2 = [s1, s2, s3])
    (hs1 : s1.length < 4294967296) (hs2 : s2.length < 4294967296)
    (hs3 : s3.length < 4294967296)
    (hpkg : (nonce2 ++ ecaps.aeadEncrypt K2 nonce2
      (salt ++ nonce ++ ct)).length < 4294967296)
    (hcar1 : dcaps.extract (ecaps.embed c1 (mk_payload 1 1 3 2 s1
      (nonce2 ++ ecaps.aeadEncrypt K2 nonce2 (salt ++ nonce ++ ct)))) =
      mk_payload 1 1 3 2 s1
        (nonce2 ++ ecaps.aeadEncrypt K2 nonce2 (salt ++ nonce ++ ct)))
    (hcar2 : dcaps.extract (ecaps.embed c2 (mk_payload 1 2 3 2 s2
      (nonce2 ++ ecaps.aeadEncrypt K2 nonce2 (salt ++ nonce ++ ct)))) =
      mk_payload 1 2 3 2 s2
        (nonce2 ++ ecaps.aeadEncrypt K2 nonce2 (salt ++ nonce ++ ct)))
    (hcar3 : dcaps.extract (ecaps.embed c3 (mk_payload 1 3 3 2 s3
      (nonce2 ++ ecaps.aeadEncrypt K2 nonce2 (salt ++ nonce ++ ct)))) =
      mk_payload 1 3 3 2 s3
        (nonce2 ++ ecaps.aeadEncrypt K2 nonce2 (salt ++ nonce ++ ct)))
    (hrec : ∀ i j : Fin 3, i ≠ j →
      dcaps.recover [[s1, s2, s3].get i, [s1, s2, s3].get j] = K2)
    (haead : dcaps.aeadDecrypt K2 nonce2
      (ecaps.aeadEncrypt K2 nonce2 (salt ++ nonce ++ ct)) =
      some (salt ++ nonce ++ ct))
    (hpcd : dcaps.pcDecrypt salt nonce ct master = some password) :
    ∃ p1 p2 p3,
      encrypt_worker ecaps password master K2 nonce2
        [some c1, some c2, some c3] = some [p1, p2, p3] ∧
      decrypt_worker dcaps [p1, p2] master = .ok password ∧
      decrypt_worker dcaps [p1, p3] master = .ok password ∧
      decrypt_worker dcaps [p2, p3] master = .ok password ∧
      decrypt_worker dcaps [p2, p1] master = .ok password ∧
      decrypt_worker dcaps [p3, p1] master = .ok password ∧
      decrypt_worker dcaps [p3, p2] master = .ok password := by
  have hw1 := wrap_nat_eq s1
    (nonce2 ++ ecaps.aeadEncrypt K2 nonce2 (salt ++ nonce ++ ct)) 1 3 2
    (by omega) (by omega) (by omega) hs1 hpkg
  have hw2 := wrap_nat_eq s2
    (nonce2 ++ ecaps.aeadEncrypt K2 nonce2 (salt ++ nonce ++ ct)) 2 3 2
    (by omega) (by omega) (by omega) hs2 hpkg
  have hw3 := wrap_nat_eq s3
    (nonce2 ++ ecaps.aeadEncrypt K2 nonce2 (salt ++ nonce ++ ct)) 3 3 2
    (by omega) (by omega) (by omega) hs3 hpkg
  have henc : encrypt_worker ecaps password master K2 nonce2
      [some c1, some c2, some c3] =
      some [ecaps.embed c1 (mk_payload 1 1 3 2 s1
          (nonce2 ++ ecaps.aeadEncrypt K2 nonce2 (salt ++ nonce ++ ct))),
        ecaps.embed c2 (mk_payload 1 2 3 2 s2
          (nonce2 ++ ecaps.aeadEncrypt K2 nonce2 (salt ++ nonce ++ ct))),
        ecaps.embed c3 (mk_payload 1 3 3 2 s3
          (nonce2 ++ ecaps.aeadEncrypt K2 nonce2 (salt ++ nonce ++ ct)))] := by
    simp only [encrypt_worker, hpc, create_shares_and_embed, hsplit,
      List.zip_cons_cons, List.zip_nil_left, embed_loop, hw1, hw2, hw3]
  refine ⟨_, _, _, henc, ?_, ?_, ?_, ?_, ?_, ?_⟩
  · exact decrypt_two_wrapped dcaps _ _ s1 s2 1 2 nonce2 _ master password
      K2 salt nonce ct hcar1 hcar2 hs1 hs2 hpkg
      (hrec 0 1 (by decide)) hK2 hnonce2 haead hsalt hnonce hpcd
  · exact decrypt_two_wrapped dcaps _ _ s1 s3 1 3 nonce2 _ master password
      K2 salt nonce ct hcar1 hcar3 hs1 hs3 hpkg
      (hrec 0 2 (by decide)) hK2 hnonce2 haead hsalt hnonce hpcd
  · exact decrypt_two_wrapped dcaps _ _ s2 s3 2 3 nonce2 _ master password
      K2 salt nonce ct hcar2 hcar3 hs2 hs3 hpkg
      (hrec 1 2 (by decide)) hK2 hnonce2 haead hsalt hnonce hpcd
  · exact decrypt_two_wrapped dcaps _ _ s2 s1 2 1 nonce2 _ master password
      K2 salt nonce ct hcar2 hcar1 hs2 hs1 hpkg
      (hrec 1 0 (by decide)) hK2 hnonce2 haead hsalt hnonce hpcd
  · exact decrypt_two_wrapped dcaps _ _ s3 s1 3 1 nonce2 _ master password
      K2 salt nonce ct hcar3 hcar1 hs3 hs1 hpkg
      (hrec 2 0 (by decide)) hK2 hnonce2 haead hsalt hnonce hpcd
  · exact decrypt_two_wrapped dcaps _ _ s3 s2 3 2 nonce2 _ master password
      K2 salt nonce ct hcar3 hcar2 hs3 hs2 hpkg
      (hrec 2 1 (by decide)) hK2 hnonce2 haead hsalt hnonce hpcd

theorem cons_of_le_length {α : Type} (b : List α) (n : Nat)
    (h : n + 1 ≤ b.length) : ∃ x xs, b = x :: xs ∧ n ≤ xs.length := by
  cases b with
  | nil => simp at h
  | cons x xs =>
    refine ⟨x, xs, rfl, ?_⟩
    simp only [List.length_cons] at h
    omega

/-- A well-formed envelope followed by one stray trailing byte. -/
def trailing_payload : List Nat := mk_payload 1 1 3 2 [9] [8] ++ [0]

/-- Claim C4, counterexample: the parser checks only that the declared
lengths fit within the buffer (`>`), not that they exhaust it, so a buffer
with a stray byte after the declared segments decodes successfully even
though `header + share_len + packaged_len` (20) differs from the buffer
length (21) — the trailing byte is silently ignored, not a hard parse
failure. -/
theorem C4_counterexample :
    parse_share_payload trailing_payload =
      .ok ⟨1, 1, 3, 2, 1, 1, [9], [8]⟩ ∧
    trailing_payload.length = 21 ∧ 18 + 1 + 1 ≠ 21 := by
  refine ⟨by rfl, by rfl, by omega⟩

/-- On any successful decode: the buffer is at least 18 bytes with the
magic in front, the decoded lengths are exactly the declared lengths of
bytes 10..17, and the declared lengths fit within the bytes remaining
after the header. -/
theorem parse_ok_fields (b : List Nat) (m : ShareMeta)
    (h : parse_share_payload b = .ok m) :
    18 ≤ b.length ∧ b.take 6 = SHARE_MAGIC ∧
    m.share_len = declared_share_len b ∧
    m.packaged_cipher_len = declared_packaged_len b ∧
    18 + m.share_len + m.packaged_cipher_len ≤ b.length := by
  simp only [parse_share_payload] at h
  split at h
  · exact absurd h (by simp)
  next hc1 =>
  split at h
  · exact absurd h (by simp)
  next hc2 =>
  split at h
  · exact absurd h (by simp)
  next hc3 =>
  simp only [Except.ok.injEq] at h
  subst h
  refine ⟨by omega, not_not.mp hc2, rfl, rfl, ?_⟩
  show 18 + fromBytesBE4 ((b.drop 10).take 4) +
    fromBytesBE4 ((b.drop 14).take 4) ≤ b.length
  omega

/-- Trailing bytes are silently ignored: appending any extra bytes to a
buffer that decodes successfully yields the very same decoded fields. -/
theorem parse_append_extra (b extra : List Nat) (m : ShareMeta)
    (h : parse_share_payload b = .ok m) :
    parse_share_payload (b ++ extra) = .ok m := by
  simp only [parse_share_payload] at h
  split at h
  · exact absurd h (by simp)
  next hc1 =>
  split at h
  · exact absurd h (by simp)
  next hc2 =>
  split at h
  · exact absurd h (by simp)
  next hc3 =>
  simp only [Except.ok.injEq] at h
  subst h
  have hmag : b.take 6 = SHARE_MAGIC := not_not.mp hc2
  have e6 : (b ++ extra).take 6 = b.take 6 :=
    List.take_append_of_le_length (by omega)
  have e10 : ((b ++ extra).drop 10).take 4 = (b.drop 10).take 4 := by
    rw [List.drop_append_of_le_length (by omega),
      List.take_append_of_le_length (by simp only [List.length_drop]; omega)]
  have e14 : ((b ++ extra).drop 14).take 4 = (b.drop 14).take 4 := by
    rw [List.drop_append_of_le_length (by omega),
      List.take_append_of_le_length (by simp only [List.length_drop]; omega)]
  have g6 : (b ++ extra).getD 6 0 = b.getD 6 0 :=
    List.getD_append _ _ _ _ (by omega)
  have g7 : (b ++ extra).getD 7 0 = b.getD 7 0 :=
    List.getD_append _ _ _ _ (by omega)
  have g8 : (b ++ extra).getD 8 0 = b.getD 8 0 :=
    List.getD_append _ _ _ _ (by omega)
  have g9 : (b ++ extra).getD 9 0 = b.getD 9 0 :=
    List.getD_append _ _ _ _ (by omega)
  have es : ((b ++ extra).drop 18).take (fromBytesBE4 ((b.drop 10).take 4))
      = (b.drop 18).take (fromBytesBE4 ((b.drop 10).take 4)) := by
    rw [List.drop_append_of_le_length (by omega),
      List.take_append_of_le_length (by simp only [List.length_drop]; omega)]
  have ep : ((b ++ extra).drop
        (18 + fromBytesBE4 ((b.drop 10).take 4))).take
        (fromBytesBE4 ((b.drop 14).take 4)) =
      (b.drop (18 + fromBytesBE4 ((b.drop 10).take 4))).take
        (fromBytesBE4 ((b.drop 14).take 4)) := by
    rw [List.drop_append_of_le_length (by omega),
      List.take_append_of_le_length (by simp only [List.length_drop]; omega)]
  rw [parse_share_payload,
    if_neg (by simp only [List.length_append]; omega),
    if_neg (by simp [e6, hmag])]
  simp only [g6, g7, g8, g9, e10, e14]
  rw [if_neg (by simp only [List.length_append]; omega)]
  rw [es, ep]

/-- Claim C4 as amended: decoding succeeds if and only if the buffer is at
least 18 bytes, the magic matches, and the declared lengths fit within the
bytes remaining after the header (`18 + share_len + packaged_len ≤
len(b)`); a buffer with extra trailing bytes beyond the declared lengths is
accepted with the trailing bytes silently ignored (appending any extra
bytes to a successfully-decoded buffer yields the same decoded fields).
When the declared lengths sum exactly to the buffer length and the version
byte is the current version 1, re-encoding the decoded fields reproduces
the buffer exactly. -/
theorem C4_amended_declared_lengths (b : List Nat) (hbytes : ByteList b) :
    ((∃ m, parse_share_payload b = .ok m) ↔
      18 ≤ b.length ∧ b.take 6 = SHARE_MAGIC ∧
      18 + declared_share_len b + declared_packaged_len b ≤ b.length) ∧
    ∀ m, parse_share_payload b = .ok m →
      m.share_len = declared_share_len b ∧
      m.packaged_cipher_len = declared_packaged_len b ∧
      (∀ extra, parse_share_payload (b ++ extra) = .ok m) ∧
      (b.length = 18 + m.share_len + m.packaged_cipher_len →
        m.version = 1 →
        wrap_share_payload m.share_bytes (m.index : Int) (m.total : Int)
          (m.threshold : Int) m.packaged_cipher = some b) := by
  constructor
  · constructor
    · rintro ⟨m, hm⟩
      obtain ⟨q1, q2, q3, q4, q5⟩ := parse_ok_fields b m hm
      exact ⟨q1, q2, by omega⟩
    · rintro ⟨h18, hmag, hfit⟩
      rw [parse_share_payload, if_neg (by omega), if_neg (by simp [hmag])]
      simp only [declared_share_len, declared_packaged_len] at hfit
      exact ⟨_, if_neg (by omega)⟩
  intro m h
  obtain ⟨q1, q2, q3, q4, q5⟩ := parse_ok_fields b m h
  refine ⟨q3, q4, fun extra => parse_append_extra b extra m h, ?_⟩
  intro hexact hver
  obtain ⟨a0, b1, rfl, h1⟩ := cons_of_le_length _ 17 q1
  obtain ⟨a1, b2, rfl, h2⟩ := cons_of_le_length _ 16 h1
  obtain ⟨a2, b3, rfl, h3⟩ := cons_of_le_length _ 15 h2
  obtain ⟨a3, b4, rfl, h4⟩ := cons_of_le_length _ 14 h3
  obtain ⟨a4, b5, rfl, h5⟩ := cons_of_le_length _ 13 h4
  obtain ⟨a5, b6, rfl, h6⟩ := cons_of_le_length _ 12 h5
  obtain ⟨a6, b7, rfl, h7⟩ := cons_of_le_length _ 11 h6
  obtain ⟨a7, b8, rfl, h8⟩ := cons_of_le_length _ 10 h7
  obtain ⟨a8, b9, rfl, h9⟩ := cons_of_le_length _ 9 h8
  obtain ⟨a9, b10, rfl, h10⟩ := cons_of_le_length _ 8 h9
  obtain ⟨a10, b11, rfl, h11⟩ := cons_of_le_length _ 7 h10
  obtain ⟨a11, b12, rfl, h12⟩ := cons_of_le_length _ 6 h11
  obtain ⟨a12, b13, rfl, h13⟩ := cons_of_le_length _ 5 h12
  obtain ⟨a13, b14, rfl, h14⟩ := cons_of_le_length _ 4 h13
  obtain ⟨a14, b15, rfl, h15⟩ := cons_of_le_length _ 3 h14
  obtain ⟨a15, b16, rfl, h16⟩ := cons_of_le_length _ 2 h15
  obtain ⟨a16, b17, rfl, h17⟩ := cons_of_le_length _ 1 h16
  obtain ⟨a17, rest, rfl, h18⟩ := cons_of_le_length _ 0 h17
  simp only [parse_share_payload] at h
  split at h
  · exact absurd h (by simp)
  next hc1 =>
  split at h
  · exact absurd h (by simp)
  next hc2 =>
  split at h
  · exact absurd h (by simp)
  next hc3 =>
  simp only [Except.ok.injEq] at h
  subst h
  simp only [SHARE_MAGIC, ne_eq, List.take_succ_cons, List.take_zero,
    not_not, List.cons.injEq, and_true] at hc2
  obtain ⟨m0, m1, m2, m3, m4, m5⟩ := hc2
  subst m0 m1 m2 m3 m4 m5
  simp only [List.drop_succ_cons, List.drop_zero, List.take_succ_cons,
    List.take_zero, List.length_cons, gt_iff_lt, not_lt] at hc3
  simp only at hver
  subst hver
  simp only [List.drop_succ_cons, List.drop_zero, List.take_succ_cons,
    List.take_zero, List.length_cons] at hexact ⊢
  have hb7 : a7 < 256 := hbytes a7 (by simp)
  have hb8 : a8 < 256 := hbytes a8 (by simp)
  have hb9 : a9 < 256 := hbytes a9 (by simp)
  have hb10 : a10 < 256 := hbytes a10 (by simp)
  have hb11 : a11 < 256 := hbytes a11 (by simp)
  have hb12 : a12 < 256 := hbytes a12 (by simp)
  have hb13 : a13 < 256 := hbytes a13 (by simp)
  have hb14 : a14 < 256 := hbytes a14 (by simp)
  have hb15 : a15 < 256 := hbytes a15 (by simp)
  have hb16 : a16 < 256 := hbytes a16 (by simp)
  have hb17 : a17 < 256 := hbytes a17 (by simp)
  have hSL : fromBytesBE4 [a10, a11, a12, a13] < 4294967296 := by
    simp only [fromBytesBE4, List.foldl]
    omega
  have hPL : fromBytesBE4 [a14, a15, a16, a17] < 4294967296 := by
    simp only [fromBytesBE4, List.foldl]
    omega
  have hfit : fromBytesBE4 [a10, a11, a12, a13] +
      fromBytesBE4 [a14, a15, a16, a17] ≤ rest.length := by
    omega
  have g7 : (70 :: 75 :: 83 :: 83 :: 48 :: 49 :: 1 :: a7 :: a8 :: a9 ::
      a10 :: a11 :: a12 :: a13 :: a14 :: a15 :: a16 :: a17 :: rest).getD
      7 0 = a7 := rfl
  have g8 : (70 :: 75 :: 83 :: 83 :: 48 :: 49 :: 1 :: a7 :: a8 :: a9 ::
      a10 :: a11 :: a12 :: a13 :: a14 :: a15 :: a16 :: a17 :: rest).getD
      8 0 = a8 := rfl
  have g9 : (70 :: 75 :: 83 :: 83 :: 48 :: 49 :: 1 :: a7 :: a8 :: a9 ::
      a10 :: a11 :: a12 :: a13 :: a14 :: a15 :: a16 :: a17 :: rest).getD
      9 0 = a9 := rfl
  have gd : (70 :: 75 :: 83 :: 83 :: 48 :: 49 :: 1 :: a7 :: a8 :: a9 ::
      a10 :: a11 :: a12 :: a13 :: a14 :: a15 :: a16 :: a17 :: rest).drop
      18 = rest := rfl
  rw [g7, g8, g9, ← List.drop_drop, gd]
  have hlen1 : (rest.take (fromBytesBE4 [a10, a11, a12, a13])).length =
      fromBytesBE4 [a10, a11, a12, a13] := by
    simp only [List.length_take]
    omega
  have hlen2 : ((rest.drop (fromBytesBE4 [a10, a11, a12, a13])).take
      (fromBytesBE4 [a14, a15, a16, a17])).length =
      fromBytesBE4 [a14, a15, a16, a17] := by
    simp only [List.length_take, List.length_drop]
    omega
  rw [wrap_share_payload, if_pos ⟨by omega, by omega⟩, hlen1, hlen2]
  have m7 : (((a7 : Int)) % 256).toNat = a7 := by omega
  have m8 : (((a8 : Int)) % 256).toNat = a8 := by omega
  have m9 : (((a9 : Int)) % 256).toNat = a9 := by omega
  have hbe1 : toBytesBE4 (fromBytesBE4 [a10, a11, a12, a13]) =
      [a10, a11, a12, a13] := by
    simp only [toBytesBE4, fromBytesBE4, List.foldl, List.cons.injEq,
      and_true]
    refine ⟨by omega, by omega, by omega, by omega⟩
  have hbe2 : toBytesBE4 (fromBytesBE4 [a14, a15, a16, a17]) =
      [a14, a15, a16, a17] := by
    simp only [toBytesBE4, fromBytesBE4, List.foldl, List.cons.injEq,
      and_true]
    refine ⟨by omega, by omega, by omega, by omega⟩
  have htake2 : (rest.drop (fromBytesBE4 [a10, a11, a12, a13])).take
      (fromBytesBE4 [a14, a15, a16, a17]) =
      rest.drop (fromBytesBE4 [a10, a11, a12, a13]) := by
    refine List.take_of_length_le ?_
    simp only [List.length_drop]
    omega
  rw [m7, m8, m9, hbe1, hbe2, htake2]
  rw [List.append_assoc _ (List.take (fromBytesBE4 [a10, a11, a12, a13])
    rest) (List.drop (fromBytesBE4 [a10, a11, a12, a13]) rest),
    List.take_append_drop]
  rfl


/-! ## Witnesses: each parameterized theorem evaluated at concrete inputs -/

theorem C2_codec_round_trip_witness :
    ∃ e, wrap_share_payload [9] ((1 : Nat) : Int) ((3 : Nat) : Int)
      ((2 : Nat) : Int) [8] = some e ∧
      parse_share_payload e =
        .ok ⟨SHARE_VERSION, 1, 3, 2, 1, 1, [9], [8]⟩ :=
  C2_codec_round_trip [9] [8] 1 3 2 (by decide) (by decide) (by decide)
    (by decide) (by decide) (by decide) (by decide) (by decide)

theorem C3_parse_failures_witness :
    parse_share_payload [0] = .error .TooShort ∧
    parse_share_payload (List.replicate 18 0) = .error .MagicMismatch ∧
    parse_share_payload
      (SHARE_MAGIC ++ [1, 1, 3, 2, 255, 255, 255, 255, 0, 0, 0, 0]) =
      .error .SizeOverflow :=
  ⟨(C3_parse_failures [0]).1 (by decide),
   (C3_parse_failures (List.replicate 18 0)).2.1 (by decide) (by decide),
   (C3_parse_failures
     (SHARE_MAGIC ++ [1, 1, 3, 2, 255, 255, 255, 255, 0, 0, 0, 0])).2.2
     (by decide) (by decide) (by decide)⟩

theorem C4_amended_declared_lengths_witness :
    parse_share_payload (mk_payload 1 1 3 2 [9] [8] ++ [0]) =
      .ok ⟨1, 1, 3, 2, 1, 1, [9], [8]⟩ ∧
    wrap_share_payload [9] ((1 : Nat) : Int) ((3 : Nat) : Int)
      ((2 : Nat) : Int) [8] = some (mk_payload 1 1 3 2 [9] [8]) := by
  have h := (C4_amended_declared_lengths (mk_payload 1 1 3 2 [9] [8])
    (by unfold ByteList; decide)).2 ⟨1, 1, 3, 2, 1, 1, [9], [8]⟩ (by rfl)
  exact ⟨h.2.2.1 [0], h.2.2.2 (by decide) (by decide)⟩

theorem C5_amended_unwrap_split_witness :
    unwrap_step (fun _ _ _ =>
        some (List.replicate 16 1 ++ List.replicate 12 2 ++ [5])) [] [] =
      some (List.replicate 16 1, List.replicate 12 2, [5]) :=
  (C5_amended_unwrap_split (fun _ _ _ =>
      some (List.replicate 16 1 ++ List.replicate 12 2 ++ [5])) [] []
      (List.replicate 16 1 ++ List.replicate 12 2 ++ [5]) rfl).2
    (List.replicate 16 1) (List.replicate 12 2) [5] rfl (by decide)
    (by decide)

theorem C6_amended_magic_only_witness :
    parse_share_payload (mk_payload 2 1 3 2 [4] [5]) =
      .ok ⟨2, 1, 3, 2, 1, 1, [4], [5]⟩ :=
  (C6_amended_magic_only 2 1 3 2 [4] [5] (by decide) (by decide)
    (by decide)).1

/-- A capability record whose two extracted envelopes disagree on `total`
(3 versus 4). -/
def mismatch_caps : DecryptCaps where
  extract := fun s =>
    if s = "x" then mk_payload 1 1 3 2 [1] [7] else mk_payload 1 2 4 2 [2] [7]
  recover := fun _ => []
  aeadDecrypt := fun _ _ _ => none
  pcDecrypt := fun _ _ _ _ => none

/-- A capability record whose extracted envelopes agree but declare
threshold 5. -/
def lowcount_caps : DecryptCaps where
  extract := fun _ => mk_payload 1 1 3 5 [1] [7]
  recover := fun _ => []
  aeadDecrypt := fun _ _ _ => none
  pcDecrypt := fun _ _ _ _ => none

/-- A capability record for a single-image decrypt attempt. -/
def single_caps : DecryptCaps where
  extract := fun _ => mk_payload 1 1 3 2 [1] [7]
  recover := fun _ => []
  aeadDecrypt := fun _ _ _ => none
  pcDecrypt := fun _ _ _ _ => none

theorem C7_consistency_and_threshold_witness :
    decrypt_worker mismatch_caps ["x", "y"] "m" =
      .error .sharesDoNotMatch ∧
    (∃ e, decrypt_worker lowcount_caps ["x", "y"] "m" = .error e ∧
      e.isInsufficientShares = true) ∧
    decrypt_worker single_caps ["x"] "m" =
      .error .notEnoughValidShares := by
  refine ⟨?_, ?_, ?_⟩
  · exact (C7_consistency_and_threshold mismatch_caps ["x", "y"] "m"
      [⟨1, 1, 3, 2, 1, 1, [1], [7]⟩, ⟨1, 2, 4, 2, 1, 1, [2], [7]⟩]
      (by rfl)).1 (by decide)
  · exact (C7_consistency_and_threshold lowcount_caps ["x", "y"] "m"
      [⟨1, 1, 3, 5, 1, 1, [1], [7]⟩, ⟨1, 1, 3, 5, 1, 1, [1], [7]⟩]
      (by rfl)).2.1 (by unfold envelopes_consistent; decide) (by decide)
  · exact (C7_consistency_and_threshold single_caps ["x"] "m"
      [⟨1, 1, 3, 2, 1, 1, [1], [7]⟩] (by rfl)).2.2 (by rfl)

theorem C8_key_normalization_witness :
    normalize_key [7] = List.replicate 15 0 ++ [7] ∧
    normalize_key (List.replicate 20 3) = (List.replicate 20 3).drop 4 ∧
    normalize_key (List.replicate 16 5) = List.replicate 16 5 := by
  refine ⟨((C8_key_normalization [7]).1 (by decide)).1, ?_,
    (C8_key_normalization (List.replicate 16 5)).2.2 (by decide)⟩
  exact ((C8_key_normalization (List.replicate 20 3)).2.1 (by decide)).1

theorem C9_header_bytes_mod_256_witness :
    ∃ e, wrap_share_payload [1] (-1 : Int) 300 77 [2] = some e ∧
      e.getD 7 0 = ((-1 : Int) % 256).toNat ∧
      e.getD 8 0 = ((300 : Int) % 256).toNat ∧
      e.getD 9 0 = ((77 : Int) % 256).toNat ∧
      (0 ≤ (-1 : Int) → (-1 : Int) ≤ 255 → (e.getD 7 0 : Int) = -1) ∧
      (0 ≤ (300 : Int) → (300 : Int) ≤ 255 → (e.getD 8 0 : Int) = 300) ∧
      (0 ≤ (77 : Int) → (77 : Int) ≤ 255 → (e.getD 9 0 : Int) = 77) :=
  C9_header_bytes_mod_256 (-1) 300 77 [1] [2] (by decide) (by decide)

theorem C10_index_never_checked_witness :
    decrypt_validate [⟨1, 1, 3, 2, 1, 1, [4], [7]⟩,
      ⟨1, 1, 3, 2, 1, 1, [4], [7]⟩] = .ok ([[4], [4]], [7]) := by
  have h := C10_index_never_checked
    [⟨1, 1, 3, 2, 1, 1, [4], [7]⟩, ⟨1, 1, 3, 2, 1, 1, [4], [7]⟩]
    (by unfold envelopes_consistent; decide) (by decide) (by decide)
    ⟨⟨0, by decide⟩, ⟨1, by decide⟩, by decide, rfl⟩
  exact h

/-- The packaged cipher of the concrete round-trip scenario: a 12-byte
wrap nonce followed by the blob (16-byte salt, 12-byte nonce, 1 ciphertext
byte) under an identity AEAD. -/
def wit_pkg : List Nat :=
  List.replicate 12 7 ++ (List.replicate 16 1 ++ List.replicate 12 2 ++ [9])

/-- Concrete encrypt capabilities for the round-trip witness. -/
def wit_ecaps : EncryptCaps where
  pcEncrypt := fun _ _ => (List.replicate 16 1, List.replicate 12 2, [9])
  aeadEncrypt := fun _ _ m => m
  split := fun _ _ _ => [[11], [12], [13]]
  embed := fun path _ => path

/-- Concrete decrypt capabilities for the round-trip witness, inverting
`wit_ecaps`. -/
def wit_dcaps : DecryptCaps where
  extract := fun s =>
    if s = "c1" then mk_payload 1 1 3 2 [11] wit_pkg
    else if s = "c2" then mk_payload 1 2 3 2 [12] wit_pkg
    else mk_payload 1 3 3 2 [13] wit_pkg
  recover := fun _ => List.replicate 16 0
  aeadDecrypt := fun _ _ c => some c
  pcDecrypt := fun _ _ _ _ => some "hunter2"

theorem C1_encrypt_decrypt_round_trip_witness :
    ∃ p1 p2 p3,
      encrypt_worker wit_ecaps "hunter2" "master" (List.replicate 16 0)
        (List.replicate 12 7) [some "c1", some "c2", some "c3"] =
        some [p1, p2, p3] ∧
      decrypt_worker wit_dcaps [p1, p2] "master" = .ok "hunter2" ∧
      decrypt_worker wit_dcaps [p1, p3] "master" = .ok "hunter2" ∧
      decrypt_worker wit_dcaps [p2, p3] "master" = .ok "hunter2" ∧
      decrypt_worker wit_dcaps [p2, p1] "master" = .ok "hunter2" ∧
      decrypt_worker wit_dcaps [p3, p1] "master" = .ok "hunter2" ∧
      decrypt_worker wit_dcaps [p3, p2] "master" = .ok "hunter2" :=
  C1_encrypt_decrypt_round_trip wit_ecaps wit_dcaps "hunter2" "master"
    (List.replicate 16 0) (List.replicate 12 7) "c1" "c2" "c3"
    (List.replicate 16 1) (List.replicate 12 2) [9] [11] [12] [13]
    rfl (by decide) (by decide) (by decide) (by decide) rfl
    (by decide) (by decide) (by decide) (by decide)
    (by rfl) (by rfl) (by rfl) (by decide) rfl rfl

end Fractured
